import Mathlib

/-!
Verification development for the OpenSCD core component
(`open-scd.ts`, `foundation/*.ts`, `components/code-wizard.ts`).

The file shallowly embeds the history log, the edit engine, the wizard
request queue, the plugin registry and the document-opening handler, and
proves the frozen claims C1..C10 about them.

The `OpenSCD` LitElement's mutable fields (`history`, `editCount`, `docs`,
`docName`, the loaded-plugin lists, the `pluginTags` module-level map) are
modelled as explicit state records; each method becomes a state-passing
function.  JavaScript numbers used as integer counters are modelled as
`Int`.  The edit engine `handleEdit` lives in `foundation.js`, whose code
is not part of the sources; the history-log methods therefore take the
engine as an explicit function argument `aE : D → E → D × E` (apply an
edit to the document, return the new document and the inverse edit),
exactly as `open-scd.ts` treats `handleEdit` as an opaque imported
function.
-/

/-- Source type `LogEntry = { undo: Edit; redo: Edit }` from `open-scd.ts`. -/
structure LogEntry (E : Type) where
  undo : E
  redo : E
deriving Repr, DecidableEq

/-- State of the history log of the `OpenSCD` element: the `history` array,
the `editCount` cursor and the current document (`this.docs[this.docName]`,
mutated in place by `handleEdit`). -/
structure EditorState (D E : Type) where
  history : List (LogEntry E)
  editCount : Int
  doc : D
deriving Repr, DecidableEq

/-- JavaScript `arr.splice(start)` removes every element from the actual
start index to the end; this function returns what the array keeps.  The
actual start index is `max(len + start, 0)` for negative `start` and
`min(start, len)` otherwise. -/
def jsSpliceKeep {α : Type} (start : Int) (l : List α) : List α :=
  if start < 0 then l.take (l.length - min (-start).toNat l.length)
  else l.take (min start.toNat l.length)

/-- Method `handleEditEvent` of `OpenSCD`:
`this.history.splice(this.editCount); this.history.push({undo: handleEdit(edit), redo: edit}); this.editCount += 1;`.
`handleEdit` mutates the current document and returns the inverse edit. -/
def handleEditEvent {D E : Type} (aE : D → E → D × E) (s : EditorState D E)
    (e : E) : EditorState D E :=
  { history := jsSpliceKeep s.editCount s.history ++ [⟨(aE s.doc e).2, e⟩]
    editCount := s.editCount + 1
    doc := (aE s.doc e).1 }

/-- Getter `last` of `OpenSCD`: `this.editCount - 1`. -/
def lastIdx {D E : Type} (s : EditorState D E) : Int :=
  s.editCount - 1

/-- Getter `canUndo` of `OpenSCD`: `this.last >= 0`. -/
def canUndo {D E : Type} (s : EditorState D E) : Bool :=
  decide (0 ≤ lastIdx s)

/-- Getter `canRedo` of `OpenSCD`: `this.editCount < this.history.length`. -/
def canRedo {D E : Type} (s : EditorState D E) : Bool :=
  decide (s.editCount < (s.history.length : Int))

/-- Method `undo(n = 1)` of `OpenSCD`:
`if (!this.canUndo || n < 1) return; handleEdit(this.history[this.last!].undo); this.editCount -= 1; if (n > 1) this.undo(n - 1);`.
The inverse returned by `handleEdit` is discarded.  The (unreachable under
the invariant `editCount ≤ history.length`) out-of-bounds array access is
modelled as leaving the document unchanged to keep the function total. -/
def undo {D E : Type} (aE : D → E → D × E) (n : Int) (s : EditorState D E) :
    EditorState D E :=
  if canUndo s = false ∨ n < 1 then s
  else
    let s' : EditorState D E :=
      { s with
        doc := match s.history.get? (lastIdx s).toNat with
               | some entry => (aE s.doc entry.undo).1
               | none => s.doc
        editCount := s.editCount - 1 }
    if 1 < n then undo aE (n - 1) s' else s'
termination_by n.toNat
decreasing_by
  simp only [not_or] at *
  omega

/-- Method `redo(n = 1)` of `OpenSCD`:
`if (!this.canRedo || n < 1) return; handleEdit(this.history[this.editCount].redo); this.editCount += 1; if (n > 1) this.redo(n - 1);`. -/
def redo {D E : Type} (aE : D → E → D × E) (n : Int) (s : EditorState D E) :
    EditorState D E :=
  if canRedo s = false ∨ n < 1 then s
  else
    let s' : EditorState D E :=
      { s with
        doc := match s.history.get? s.editCount.toNat with
               | some entry => (aE s.doc entry.redo).1
               | none => s.doc
        editCount := s.editCount + 1 }
    if 1 < n then redo aE (n - 1) s' else s'
termination_by n.toNat
decreasing_by
  simp only [not_or] at *
  omega

/-- States of the history log reachable from the initial state
(`history = []`, `editCount = 0`, any document) by commits, undos and
redos. -/
inductive Reachable {D E : Type} (aE : D → E → D × E) : EditorState D E → Prop
  | init (d : D) : Reachable aE ⟨[], 0, d⟩
  | commit {s : EditorState D E} (e : E) :
      Reachable aE s → Reachable aE (handleEditEvent aE s e)
  | undoStep {s : EditorState D E} (n : Int) :
      Reachable aE s → Reachable aE (undo aE n s)
  | redoStep {s : EditorState D E} (n : Int) :
      Reachable aE s → Reachable aE (redo aE n s)

/-- Cursor invariant of the history log. -/
def HistInv {D E : Type} (s : EditorState D E) : Prop :=
  0 ≤ s.editCount ∧ s.editCount ≤ (s.history.length : Int)

theorem jsSpliceKeep_nonneg {α : Type} (start : Int) (l : List α)
    (h : 0 ≤ start) : jsSpliceKeep start l = l.take start.toNat := by
  unfold jsSpliceKeep
  rw [if_neg (by omega)]
  rcases Nat.le_total start.toNat l.length with hle | hle
  · rw [min_eq_left hle]
  · rw [min_eq_right hle, List.take_length,
      List.take_of_length_le hle]

theorem histInv_commit {D E : Type} (aE : D → E → D × E)
    (s : EditorState D E) (e : E) (h : HistInv s) :
    HistInv (handleEditEvent aE s e) := by
  obtain ⟨h0, h1⟩ := h
  constructor
  · simp [handleEditEvent]
    omega
  · simp [handleEditEvent, jsSpliceKeep_nonneg _ _ h0, List.length_take]
    omega

theorem histInv_undo {D E : Type} (aE : D → E → D × E) :
    ∀ (m : Nat) (n : Int) (s : EditorState D E), n.toNat ≤ m → HistInv s →
      HistInv (undo aE n s) := by
  intro m
  induction m with
  | zero =>
    intro n s hn h
    rw [undo, if_pos (by omega)]
    exact h
  | succ m ih =>
    intro n s hn h
    rw [undo]
    by_cases hg : canUndo s = false ∨ n < 1
    · rw [if_pos hg]; exact h
    · rw [if_neg hg]
      simp only [not_or, canUndo, lastIdx, decide_eq_false_iff_not,
        not_not, not_lt] at hg
      obtain ⟨hcu, hn1⟩ := hg
      by_cases h2 : 1 < n
      · rw [if_pos h2]
        exact ih (n - 1) _ (by omega) ⟨by simp; omega, by simp; exact h.2.trans (by simp)⟩
      · rw [if_neg h2]
        exact ⟨by simp; omega, by simp; exact h.2.trans (by simp)⟩

theorem histInv_redo {D E : Type} (aE : D → E → D × E) :
    ∀ (m : Nat) (n : Int) (s : EditorState D E), n.toNat ≤ m → HistInv s →
      HistInv (redo aE n s) := by
  intro m
  induction m with
  | zero =>
    intro n s hn h
    rw [redo, if_pos (by omega)]
    exact h
  | succ m ih =>
    intro n s hn h
    rw [redo]
    by_cases hg : canRedo s = false ∨ n < 1
    · rw [if_pos hg]; exact h
    · rw [if_neg hg]
      simp only [not_or, canRedo, decide_eq_false_iff_not,
        not_not, not_lt] at hg
      obtain ⟨hcr, hn1⟩ := hg
      obtain ⟨hA, hB⟩ := h
      by_cases h2 : 1 < n
      · rw [if_pos h2]
        exact ih (n - 1) _ (by omega) ⟨by simp; omega, by simp; omega⟩
      · rw [if_neg h2]
        exact ⟨by simp; omega, by simp; omega⟩

theorem histInv_reachable {D E : Type} (aE : D → E → D × E)
    (s : EditorState D E) (h : Reachable aE s) : HistInv s := by
  induction h with
  | init d => exact ⟨le_refl 0, by simp⟩
  | commit e _ ih => exact histInv_commit _ _ _ ih
  | undoStep n _ ih => exact histInv_undo _ n.toNat n _ (le_refl _) ih
  | redoStep n _ ih => exact histInv_redo _ n.toNat n _ (le_refl _) ih

/-- Concrete edit engine on integer documents used to instantiate the
generic history-log theorems: applying the edit `e` adds `e` to the
document and returns the inverse edit `-e`. -/
def intAE : Int → Int → Int × Int := fun d e => (d + e, -e)

/-- C1: for every history state (with the cursor in range, as in every
reachable state) and every committed edit, `handleEditEvent` discards all
log entries at index ≥ `editCount`, appends `{undo: inverse, redo: edit}`
where `inverse` is what the edit engine returns for the edit, and
increments `editCount` by one; consequently after
`commit A; commit B; undo(); commit C` the redo column of the history is
exactly `[A, C]` (`B`'s redo branch is gone), and an undo followed by a
redo replays `C`'s redo branch. -/
theorem C1_commit_truncates_then_appends {D E : Type} (aE : D → E → D × E) :
    (∀ (s : EditorState D E) (e : E), 0 ≤ s.editCount →
      handleEditEvent aE s e =
        ⟨s.history.take s.editCount.toNat ++ [⟨(aE s.doc e).2, e⟩],
         s.editCount + 1, (aE s.doc e).1⟩) ∧
    (∀ (d : D) (A B C : E),
      (handleEditEvent aE (undo aE 1 (handleEditEvent aE
          (handleEditEvent aE ⟨[], 0, d⟩ A) B)) C).history.map LogEntry.redo
        = [A, C] ∧
      (handleEditEvent aE (undo aE 1 (handleEditEvent aE
          (handleEditEvent aE ⟨[], 0, d⟩ A) B)) C).editCount = 2 ∧
      (redo aE 1 (undo aE 1 (handleEditEvent aE (undo aE 1 (handleEditEvent aE
          (handleEditEvent aE ⟨[], 0, d⟩ A) B)) C))).doc =
        (aE (undo aE 1 (handleEditEvent aE (undo aE 1 (handleEditEvent aE
          (handleEditEvent aE ⟨[], 0, d⟩ A) B)) C)).doc C).1 ∧
      (redo aE 1 (undo aE 1 (handleEditEvent aE (undo aE 1 (handleEditEvent aE
          (handleEditEvent aE ⟨[], 0, d⟩ A) B)) C))).editCount = 2) := by
  constructor
  · intro s e h
    simp [handleEditEvent, jsSpliceKeep_nonneg _ _ h]
  · intro d A B C
    have e1 : handleEditEvent aE (⟨[], 0, d⟩ : EditorState D E) A =
        ⟨[⟨(aE d A).2, A⟩], 1, (aE d A).1⟩ := by
      simp [handleEditEvent, jsSpliceKeep]
    rw [e1]
    have e2 : handleEditEvent aE
        (⟨[⟨(aE d A).2, A⟩], 1, (aE d A).1⟩ : EditorState D E) B =
        ⟨[⟨(aE d A).2, A⟩, ⟨(aE (aE d A).1 B).2, B⟩], 2, (aE (aE d A).1 B).1⟩ := by
      simp [handleEditEvent, jsSpliceKeep]
    rw [e2]
    have e3 : undo aE 1
        (⟨[⟨(aE d A).2, A⟩, ⟨(aE (aE d A).1 B).2, B⟩], 2,
          (aE (aE d A).1 B).1⟩ : EditorState D E) =
        ⟨[⟨(aE d A).2, A⟩, ⟨(aE (aE d A).1 B).2, B⟩], 1,
          (aE (aE (aE d A).1 B).1 (aE (aE d A).1 B).2).1⟩ := by
      rw [undo]
      norm_num [canUndo, lastIdx]
    rw [e3]
    have e4 : handleEditEvent aE
        (⟨[⟨(aE d A).2, A⟩, ⟨(aE (aE d A).1 B).2, B⟩], 1,
          (aE (aE (aE d A).1 B).1 (aE (aE d A).1 B).2).1⟩ : EditorState D E) C =
        ⟨[⟨(aE d A).2, A⟩,
          ⟨(aE (aE (aE (aE d A).1 B).1 (aE (aE d A).1 B).2).1 C).2, C⟩], 2,
          (aE (aE (aE (aE d A).1 B).1 (aE (aE d A).1 B).2).1 C).1⟩ := by
      simp [handleEditEvent, jsSpliceKeep]
    rw [e4]
    refine ⟨by simp, rfl, ?_, ?_⟩ <;>
    · rw [undo]
      norm_num [canUndo, lastIdx]
      rw [redo]
      norm_num [canRedo]

/-- Witness for C1 at the concrete integer edit engine. -/
theorem C1_witness :
    ((0 : Int) ≤ 0 ∧
      handleEditEvent intAE (⟨[], 0, 0⟩ : EditorState Int Int) 5 =
        ⟨([] : List (LogEntry Int)).take (0 : Int).toNat ++ [⟨(intAE 0 5).2, 5⟩],
         0 + 1, (intAE 0 5).1⟩) ∧
    (handleEditEvent intAE (undo intAE 1 (handleEditEvent intAE
        (handleEditEvent intAE (⟨[], 0, 0⟩ : EditorState Int Int) 1) 2)) 3).history.map
        LogEntry.redo = [1, 3] :=
  ⟨⟨le_refl 0,
    (C1_commit_truncates_then_appends intAE).1 ⟨[], 0, 0⟩ 5 (le_refl 0)⟩,
   ((C1_commit_truncates_then_appends intAE).2 0 1 2 3).1⟩

/-- C6: `undo(n)` with `canUndo` false or `n < 1`, and `redo(n)` with
`canRedo` false or `n < 1`, are silent no-ops: the whole state (document,
history sequence and `editCount`) is returned unchanged, and no error is
raised (the functions are total). -/
theorem C6_guard_noop {D E : Type} (aE : D → E → D × E)
    (s : EditorState D E) (n : Int) :
    (canUndo s = false ∨ n < 1 → undo aE n s = s) ∧
    (canRedo s = false ∨ n < 1 → redo aE n s = s) := by
  constructor
  · intro h
    rw [undo, if_pos h]
  · intro h
    rw [redo, if_pos h]

/-- Witness for C6: `undo 0` and `redo 0` on a concrete state. -/
theorem C6_witness :
    (canUndo (⟨[⟨-1, 1⟩], 1, 1⟩ : EditorState Int Int) = false ∨ (0 : Int) < 1) ∧
    undo intAE 0 (⟨[⟨-1, 1⟩], 1, 1⟩ : EditorState Int Int) = ⟨[⟨-1, 1⟩], 1, 1⟩ ∧
    redo intAE 0 (⟨[⟨-1, 1⟩], 1, 1⟩ : EditorState Int Int) = ⟨[⟨-1, 1⟩], 1, 1⟩ :=
  ⟨Or.inr (by norm_num),
   (C6_guard_noop intAE ⟨[⟨-1, 1⟩], 1, 1⟩ 0).1 (Or.inr (by norm_num)),
   (C6_guard_noop intAE ⟨[⟨-1, 1⟩], 1, 1⟩ 0).2 (Or.inr (by norm_num))⟩

/-- C7: in every state reachable by commits, undos and redos, the cursor
`editCount` lies in `[0, history.length]`, `canUndo` equals
`editCount > 0` and `canRedo` equals `editCount < history.length`. -/
theorem C7_cursor_invariant {D E : Type} (aE : D → E → D × E)
    (s : EditorState D E) (h : Reachable aE s) :
    0 ≤ s.editCount ∧ s.editCount ≤ (s.history.length : Int) ∧
    canUndo s = decide (0 < s.editCount) ∧
    canRedo s = decide (s.editCount < (s.history.length : Int)) := by
  obtain ⟨h0, h1⟩ := histInv_reachable aE s h
  refine ⟨h0, h1, ?_, rfl⟩
  simp only [canUndo, lastIdx]
  exact decide_eq_decide.mpr (by omega)

/-- Witness for C7 at a reachable state: one commit from the initial state. -/
theorem C7_witness :
    0 ≤ (handleEditEvent intAE (⟨[], 0, 0⟩ : EditorState Int Int) 7).editCount ∧
    (handleEditEvent intAE (⟨[], 0, 0⟩ : EditorState Int Int) 7).editCount ≤
      ((handleEditEvent intAE (⟨[], 0, 0⟩ : EditorState Int Int) 7).history.length : Int) ∧
    canUndo (handleEditEvent intAE (⟨[], 0, 0⟩ : EditorState Int Int) 7) =
      decide (0 < (handleEditEvent intAE (⟨[], 0, 0⟩ : EditorState Int Int) 7).editCount) ∧
    canRedo (handleEditEvent intAE (⟨[], 0, 0⟩ : EditorState Int Int) 7) =
      decide ((handleEditEvent intAE (⟨[], 0, 0⟩ : EditorState Int Int) 7).editCount <
        ((handleEditEvent intAE (⟨[], 0, 0⟩ : EditorState Int Int) 7).history.length : Int)) :=
  C7_cursor_invariant intAE _ (Reachable.commit 7 (Reachable.init 0))

/-- C8: in any state satisfying the cursor invariant (which holds in every
reachable state), with `canUndo` true, `undo(1)` applies
`history[editCount-1].undo` through the edit engine, discards the returned
inverse (the history sequence is returned unchanged) and decrements
`editCount`; symmetrically with `canRedo` true, `redo(1)` applies
`history[editCount].redo`, increments `editCount` and leaves the history
sequence unchanged. -/
theorem C8_undo_redo_frame {D E : Type} (aE : D → E → D × E)
    (s : EditorState D E) (hInv : HistInv s) :
    (canUndo s = true →
      ∃ entry, s.history.get? (s.editCount - 1).toNat = some entry ∧
        undo aE 1 s = ⟨s.history, s.editCount - 1, (aE s.doc entry.undo).1⟩) ∧
    (canRedo s = true →
      ∃ entry, s.history.get? s.editCount.toNat = some entry ∧
        redo aE 1 s = ⟨s.history, s.editCount + 1, (aE s.doc entry.redo).1⟩) := by
  obtain ⟨hA, hB⟩ := hInv
  constructor
  · intro hU
    have h0 : 0 ≤ s.editCount - 1 := by
      simpa [canUndo, lastIdx] using hU
    have hu : (s.editCount - 1).toNat < s.history.length := by omega
    refine ⟨s.history.get ⟨(s.editCount - 1).toNat, hu⟩,
      List.get?_eq_get hu, ?_⟩
    rw [undo]
    rw [if_neg (by simp [hU])]
    simp only [lastIdx, List.get?_eq_get hu]
    rw [if_neg (by norm_num)]
  · intro hR
    have h1 : s.editCount < (s.history.length : Int) := by
      simpa [canRedo] using hR
    have hr : s.editCount.toNat < s.history.length := by omega
    refine ⟨s.history.get ⟨s.editCount.toNat, hr⟩,
      List.get?_eq_get hr, ?_⟩
    rw [redo]
    rw [if_neg (by simp [hR])]
    simp only [List.get?_eq_get hr]
    rw [if_neg (by norm_num)]

/-- Witness for C8 at a concrete state with both an undoable and a
redoable entry. -/
theorem C8_witness :
    (canUndo (⟨[⟨-1, 1⟩, ⟨-2, 2⟩], 1, 1⟩ : EditorState Int Int) = true) ∧
    (∃ entry, ([⟨-1, 1⟩, ⟨-2, 2⟩] : List (LogEntry Int)).get?
        ((1 : Int) - 1).toNat = some entry ∧
      undo intAE 1 (⟨[⟨-1, 1⟩, ⟨-2, 2⟩], 1, 1⟩ : EditorState Int Int) =
        ⟨[⟨-1, 1⟩, ⟨-2, 2⟩], 1 - 1, (intAE 1 entry.undo).1⟩) ∧
    (canRedo (⟨[⟨-1, 1⟩, ⟨-2, 2⟩], 1, 1⟩ : EditorState Int Int) = true) ∧
    (∃ entry, ([⟨-1, 1⟩, ⟨-2, 2⟩] : List (LogEntry Int)).get?
        (1 : Int).toNat = some entry ∧
      redo intAE 1 (⟨[⟨-1, 1⟩, ⟨-2, 2⟩], 1, 1⟩ : EditorState Int Int) =
        ⟨[⟨-1, 1⟩, ⟨-2, 2⟩], 1 + 1, (intAE 1 entry.redo).1⟩) :=
  ⟨by decide,
   (C8_undo_redo_frame intAE ⟨[⟨-1, 1⟩, ⟨-2, 2⟩], 1, 1⟩
     ⟨by decide, by decide⟩).1 (by decide),
   by decide,
   (C8_undo_redo_frame intAE ⟨[⟨-1, 1⟩, ⟨-2, 2⟩], 1, 1⟩
     ⟨by decide, by decide⟩).2 (by decide)⟩

/-- Source type `EditV2 = Insert | SetAttributes | SetTextContent | Remove | Edit[]`
(API.md): an edit is either an atomic edit or an ordered sequence of edits
applied as one unit (a Compound).  The four atomic variants are abstracted
into a type parameter `A`; the compound structure, which the claims about
the edit engine concern, is kept concrete. -/
inductive EditT (A : Type) : Type where
  | atomic : A → EditT A
  | compound : List (EditT A) → EditT A

mutual

/-- Modelled from the spec: the edit engine `handleEdit` lives in
`foundation.js`, which is not among the sources.  Per spec §4.1 it applies
an edit, returns its inverse, and rejects invalid edits without mutating
(`Option`); `Compound[e1..en]` applies each member in order and fails
atomically if any member fails, accumulating the member inverses (most
recent first, as `unshift` would) so that the resulting inverse list is the
reverse of application order.  Atomic edits are delegated to the abstract
atomic engine `aA`. -/
def applyEdit {D A : Type} (aA : D → A → Option (D × A)) :
    D → EditT A → Option (D × EditT A)
  | d, .atomic a => Option.map (fun p => (p.1, EditT.atomic p.2)) (aA d a)
  | d, .compound es =>
      Option.map (fun p => (p.1, EditT.compound p.2)) (applyList aA d es [])

/-- Helper of `applyEdit` for compound edits: applies the members in order,
pushing each inverse onto the front of the accumulator. -/
def applyList {D A : Type} (aA : D → A → Option (D × A)) :
    D → List (EditT A) → List (EditT A) → Option (D × List (EditT A))
  | d, [], acc => some (d, acc)
  | d, e :: es, acc =>
      Option.bind (applyEdit aA d e) (fun p => applyList aA p.1 es (p.2 :: acc))

end

/-- Reference sequential application: applies the edits in order and
returns the member inverses in application order (not reversed). -/
def seqApply {D A : Type} (aA : D → A → Option (D × A)) :
    D → List (EditT A) → Option (D × List (EditT A))
  | d, [] => some (d, [])
  | d, e :: es =>
      Option.bind (applyEdit aA d e)
        (fun p => Option.map (fun q => (q.1, p.2 :: q.2)) (seqApply aA p.1 es))

theorem applyList_eq_seqApply {D A : Type} (aA : D → A → Option (D × A)) :
    ∀ (es : List (EditT A)) (d : D) (acc : List (EditT A)),
      applyList aA d es acc =
        Option.map (fun q => (q.1, q.2.reverse ++ acc)) (seqApply aA d es) := by
  intro es
  induction es with
  | nil => intro d acc; simp [applyList, seqApply]
  | cons e rest ih =>
    intro d acc
    rw [applyList, seqApply]
    cases applyEdit aA d e with
    | none => simp
    | some p =>
      simp [ih p.1 (p.2 :: acc)]
      cases seqApply aA p.1 rest with
      | none => simp
      | some q => simp

/-- Round-trip property of an atomic engine: the inverse it returns, when
applied, restores the prior document and succeeds. -/
def AtomRT {D A : Type} (aA : D → A → Option (D × A)) : Prop :=
  ∀ d a d' i, aA d a = some (d', i) → ∃ j, aA d' i = some (d, j)

theorem seqApply_append {D A : Type} (aA : D → A → Option (D × A)) :
    ∀ (l1 l2 : List (EditT A)) (d : D),
      seqApply aA d (l1 ++ l2) =
        Option.bind (seqApply aA d l1) (fun p =>
          Option.map (fun q => (q.1, p.2 ++ q.2)) (seqApply aA p.1 l2)) := by
  intro l1
  induction l1 with
  | nil => intro l2 d; simp [seqApply]
  | cons e rest ih =>
    intro l2 d
    rw [List.cons_append, seqApply, seqApply]
    cases applyEdit aA d e with
    | none => simp
    | some p =>
      simp [ih l2 p.1]
      cases seqApply aA p.1 rest with
      | none => simp
      | some q =>
        simp
        cases seqApply aA q.1 l2 with
        | none => simp
        | some r => simp

theorem listRT {D A : Type} (aA : D → A → Option (D × A))
    (es : List (EditT A))
    (IH : ∀ e ∈ es, ∀ (d d' : D) (i : EditT A),
      applyEdit aA d e = some (d', i) →
      ∃ j, applyEdit aA d' i = some (d, j)) :
    ∀ (d dn : D) (invs : List (EditT A)),
      seqApply aA d es = some (dn, invs) →
      ∃ js, seqApply aA dn invs.reverse = some (d, js) := by
  induction es with
  | nil =>
    intro d dn invs h
    rw [seqApply] at h
    injection h with h'
    injection h' with h1 h2
    subst h1; subst h2
    exact ⟨[], by rw [List.reverse_nil, seqApply]⟩
  | cons e rest ih =>
    intro d dn invs h
    rw [seqApply] at h
    rcases hae : applyEdit aA d e with _ | p
    · rw [hae] at h; simp at h
    · rw [hae] at h
      simp only [Option.some_bind] at h
      rcases hsr : seqApply aA p.1 rest with _ | q
      · rw [hsr] at h; simp at h
      · rw [hsr] at h
        simp only [Option.map_some'] at h
        injection h with h'
        injection h' with h1 h2
        subst h1
        subst h2
        obtain ⟨j, hj⟩ := IH e (List.mem_cons_self e rest) d p.1 p.2 hae
        obtain ⟨js, hjs⟩ :=
          ih (fun e' he' => IH e' (List.mem_cons_of_mem e he')) p.1 q.1 q.2 hsr
        refine ⟨js ++ [j], ?_⟩
        rw [List.reverse_cons, seqApply_append aA q.2.reverse [p.2] q.1, hjs]
        simp only [Option.some_bind]
        rw [seqApply, hj]
        simp only [Option.some_bind]
        rw [seqApply]
        simp

theorem editT_sizeOf_pos {A : Type} [SizeOf A] (e : EditT A) : 0 < sizeOf e := by
  cases e <;> simp_arith

/-- Round-trip for the whole engine: if an edit applies successfully, its
computed inverse applies successfully on the result and restores the prior
document. -/
theorem editRT {D A : Type} (aA : D → A → Option (D × A)) (hA : AtomRT aA) :
    ∀ (e : EditT A) (d d' : D) (i : EditT A),
      applyEdit aA d e = some (d', i) → ∃ j, applyEdit aA d' i = some (d, j) := by
  have main : ∀ (n : Nat) (e : EditT A), sizeOf e ≤ n →
      ∀ (d d' : D) (i : EditT A),
        applyEdit aA d e = some (d', i) → ∃ j, applyEdit aA d' i = some (d, j) := by
    intro n
    induction n with
    | zero =>
      intro e he
      exact absurd (editT_sizeOf_pos e) (by omega)
    | succ n ihn =>
      intro e he d d' i happ
      cases e with
      | atomic a =>
        rw [applyEdit] at happ
        rcases ha : aA d a with _ | p
        · rw [ha] at happ; simp at happ
        · rw [ha] at happ
          simp only [Option.map_some'] at happ
          injection happ with h'
          injection h' with h1 h2
          subst h1
          obtain ⟨j, hj⟩ := hA d a p.1 p.2 (by rw [ha])
          subst h2
          refine ⟨EditT.atomic j, ?_⟩
          rw [applyEdit, hj]
          simp
      | compound es =>
        rw [applyEdit, applyList_eq_seqApply] at happ
        rcases hsq : seqApply aA d es with _ | q
        · rw [hsq] at happ; simp at happ
        · rw [hsq] at happ
          simp only [Option.map_some'] at happ
          injection happ with h'
          injection h' with h1 h2
          subst h1
          subst h2
          have hIH : ∀ e' ∈ es, ∀ (d0 d1 : D) (i0 : EditT A),
              applyEdit aA d0 e' = some (d1, i0) →
              ∃ j0, applyEdit aA d1 i0 = some (d0, j0) := by
            intro e' he' d0 d1 i0 h0
            have hlt : sizeOf e' < sizeOf (EditT.compound es) := by
              have := List.sizeOf_lt_of_mem he'
              simp only [EditT.compound.sizeOf_spec]
              omega
            exact ihn e' (by omega) d0 d1 i0 h0
          obtain ⟨js, hjs⟩ := listRT aA es hIH d q.1 q.2 hsq
          refine ⟨EditT.compound (js.reverse ++ []), ?_⟩
          rw [List.append_nil, applyEdit, applyList_eq_seqApply, hjs]
          simp
  intro e
  exact main (sizeOf e) e (le_refl _)

/-- Concrete atomic engine on integer documents (add the atom, inverse is
its negation) used to instantiate the generic edit-engine theorems. -/
def intAEo : Int → Int → Option (Int × Int) := fun d a => some (d + a, -a)

theorem intAEo_rt : AtomRT intAEo := by
  intro d a d' i h
  simp only [intAEo, Option.some.injEq, Prod.mk.injEq] at h
  obtain ⟨h1, h2⟩ := h
  subst h1
  subst h2
  exact ⟨a, by simp [intAEo]⟩

/-- C3: for every compound edit that applies successfully, the edit engine
applies the members in order (the document result is that of sequential
application) and the inverse it returns is the Compound of the member
inverses in reversed order. -/
theorem C3_compound_inverse_reversed {D A : Type} (aA : D → A → Option (D × A))
    (d : D) (es : List (EditT A)) (d' : D) (inv : EditT A)
    (h : applyEdit aA d (EditT.compound es) = some (d', inv)) :
    ∃ invs, seqApply aA d es = some (d', invs) ∧
      inv = EditT.compound invs.reverse := by
  rw [applyEdit, applyList_eq_seqApply] at h
  rcases hsq : seqApply aA d es with _ | ⟨q1, q2⟩
  · rw [hsq] at h; simp at h
  · rw [hsq] at h
    simp only [Option.map_some'] at h
    injection h with h'
    injection h' with h1 h2
    subst h1
    subst h2
    exact ⟨q2, rfl, by rw [List.append_nil]⟩

/-- Witness for C3 at the concrete integer engine. -/
theorem C3_witness :
    (applyEdit intAEo 0 (EditT.compound [EditT.atomic 1, EditT.atomic 2]) =
      some (3, EditT.compound [EditT.atomic (-2), EditT.atomic (-1)])) ∧
    ∃ invs, seqApply intAEo 0 [EditT.atomic 1, EditT.atomic 2] = some (3, invs) ∧
      EditT.compound [EditT.atomic (-2), EditT.atomic (-1)] =
        EditT.compound invs.reverse :=
  ⟨by simp [applyEdit, applyList, intAEo],
   C3_compound_inverse_reversed intAEo 0 [EditT.atomic 1, EditT.atomic 2] 3
     (EditT.compound [EditT.atomic (-2), EditT.atomic (-1)])
     (by simp [applyEdit, applyList, intAEo])⟩

/-- Modelled from the spec: the handler for `EditEventV2` with its `squash`
option is part of this repository but not among the sources (the
`open-scd.ts` version included handles only the deprecated V1 edit events,
which carry no options); the API documentation declares the `squash` flag
("whether the edit should be merged with the previous edit in the
history") and spec §4.2 gives the commit procedure.  Steps: apply the edit
via the edit engine obtaining the inverse (a rejected edit leaves the
state untouched); discard all entries at index ≥ `editCount`; then, if
`squash` is set and the history is non-empty, replace the last entry's
`redo` by `Compound[last.redo, edit]` and its `undo` by
`Compound[inverse, last.undo]` without appending and with `editCount`
unchanged; otherwise append `{undo: inverse, redo: edit}` and increment
`editCount`. -/
def commitV2 {D A : Type} (aA : D → A → Option (D × A))
    (s : EditorState D (EditT A)) (e : EditT A) (squash : Bool) :
    EditorState D (EditT A) :=
  match applyEdit aA s.doc e with
  | none => s
  | some (d', inv) =>
    match squash, (jsSpliceKeep s.editCount s.history).getLast? with
    | true, some lastEntry =>
        { history := (jsSpliceKeep s.editCount s.history).dropLast ++
            [⟨EditT.compound [inv, lastEntry.undo],
              EditT.compound [lastEntry.redo, e]⟩]
          editCount := s.editCount
          doc := d' }
    | _, _ =>
        { history := jsSpliceKeep s.editCount s.history ++ [⟨inv, e⟩]
          editCount := s.editCount + 1
          doc := d' }

/-- C2: committing with `squash` when the (truncated) history is non-empty
appends no new entry: the last entry's `redo` becomes
`Compound[last.redo, edit]` and its `undo` becomes
`Compound[inverse, last.undo]`, with `editCount` unchanged; consequently
`commit A; commit B {squash}` leaves exactly one history entry, and
applying that entry's single `undo` reverts both `B` and `A`, restoring
the original document (for any atomic engine satisfying the round-trip
property). -/
theorem C2_squash_merges {D A : Type}
    (aA : D → A → Option (D × A)) (hA : AtomRT aA)
    (d0 d1 d2 : D) (eA eB iA iB : EditT A)
    (h1 : applyEdit aA d0 eA = some (d1, iA))
    (h2 : applyEdit aA d1 eB = some (d2, iB)) :
    (∀ (s : EditorState D (EditT A)) (e : EditT A) (d' : D) (inv : EditT A)
        (pre : List (LogEntry (EditT A))) (lastEntry : LogEntry (EditT A)),
      applyEdit aA s.doc e = some (d', inv) →
      jsSpliceKeep s.editCount s.history = pre ++ [lastEntry] →
      commitV2 aA s e true =
        ⟨pre ++ [⟨EditT.compound [inv, lastEntry.undo],
                  EditT.compound [lastEntry.redo, e]⟩], s.editCount, d'⟩) ∧
    commitV2 aA (commitV2 aA ⟨[], 0, d0⟩ eA false) eB true =
      ⟨[⟨EditT.compound [iB, iA], EditT.compound [eA, eB]⟩], 1, d2⟩ ∧
    ∃ j, applyEdit aA d2 (EditT.compound [iB, iA]) = some (d0, j) := by
  have gen : ∀ (s : EditorState D (EditT A)) (e : EditT A) (d' : D) (inv : EditT A)
      (pre : List (LogEntry (EditT A))) (lastEntry : LogEntry (EditT A)),
      applyEdit aA s.doc e = some (d', inv) →
      jsSpliceKeep s.editCount s.history = pre ++ [lastEntry] →
      commitV2 aA s e true =
        ⟨pre ++ [⟨EditT.compound [inv, lastEntry.undo],
                  EditT.compound [lastEntry.redo, e]⟩], s.editCount, d'⟩ := by
    intro s e d' inv pre lastEntry happ hsp
    unfold commitV2
    rw [happ, hsp, List.getLast?_concat]
    simp [List.dropLast_concat]
  refine ⟨gen, ?_, ?_⟩
  · have s1eq : commitV2 aA (⟨[], 0, d0⟩ : EditorState D (EditT A)) eA false =
        ⟨[⟨iA, eA⟩], 1, d1⟩ := by
      unfold commitV2
      simp [h1, jsSpliceKeep]
    rw [s1eq]
    have := gen ⟨[⟨iA, eA⟩], 1, d1⟩ eB d2 iB [] ⟨iA, eA⟩ h2 (by simp [jsSpliceKeep])
    simpa using this
  · obtain ⟨jB, hjB⟩ := editRT aA hA eB d1 d2 iB h2
    obtain ⟨jA, hjA⟩ := editRT aA hA eA d0 d1 iA h1
    refine ⟨EditT.compound [jA, jB], ?_⟩
    simp only [applyEdit, applyList, hjB, hjA, Option.some_bind]
    simp

/-- Witness for C2 at the concrete integer engine: squashing eats the
second commit into the single history entry, whose undo restores 0. -/
theorem C2_witness :
    commitV2 intAEo (commitV2 intAEo ⟨[], 0, 0⟩ (EditT.atomic 1) false)
        (EditT.atomic 2) true =
      ⟨[⟨EditT.compound [EditT.atomic (-2), EditT.atomic (-1)],
         EditT.compound [EditT.atomic 1, EditT.atomic 2]⟩], 1, 3⟩ ∧
    ∃ j, applyEdit intAEo 3
        (EditT.compound [EditT.atomic (-2), EditT.atomic (-1)]) = some (0, j) :=
  (C2_squash_merges intAEo intAEo_rt 0 1 3 (EditT.atomic 1) (EditT.atomic 2)
    (EditT.atomic (-1)) (EditT.atomic (-2))
    (by simp [applyEdit, intAEo]) (by simp [applyEdit, intAEo])).2

/-- Modelled from the spec: the wizard request queue of the `OpenSCD`
element (`workflow`) is part of this repository but not among the sources
(only its tests and the `code-wizard` dialog component are).  A wizard
request carries the `subWizard` flag (spec §3); the remaining payload
(`element`, or `parent` and `tagName`) is abstracted into `P`. -/
structure WizardRequest (P : Type) where
  subWizard : Bool
  payload : P
deriving Repr, DecidableEq

/-- Modelled from the spec §4.3: enqueue a request into `workflow` —
`subWizard` true inserts at the front, ahead of the current active entry;
`subWizard` falsy appends to the end. -/
def enqueueWizard {P : Type} (w : List (WizardRequest P))
    (r : WizardRequest P) : List (WizardRequest P) :=
  if r.subWizard then r :: w else w ++ [r]

/-- Modelled from the spec §4.3: a close signal removes the current active
entry `workflow[0]` unconditionally. -/
def closeWizard {P : Type} (w : List (WizardRequest P)) :
    List (WizardRequest P) :=
  w.drop 1

/-- Modelled from the spec §4.3: the active request is always
`workflow[0]`. -/
def activeWizard {P : Type} (w : List (WizardRequest P)) :
    Option (WizardRequest P) :=
  w.head?

/-- C5: in any queue state (hence along every sequence of operations from
the empty queue), enqueuing a non-nested request appends it at the end,
enqueuing a nested request inserts it at the front ahead of the active
entry, a close signal removes exactly `workflow[0]` (every other entry
survives, shifted down by one) and never a non-front entry, and the
active request is `workflow[0]`. -/
theorem C5_wizard_queue_disciplines {P : Type} (w rest : List (WizardRequest P))
    (r : WizardRequest P) :
    (r.subWizard = false → enqueueWizard w r = w ++ [r]) ∧
    (r.subWizard = true → enqueueWizard w r = r :: w) ∧
    closeWizard (r :: rest) = rest ∧
    closeWizard ([] : List (WizardRequest P)) = [] ∧
    (∀ i, (closeWizard w).get? i = w.get? (i + 1)) ∧
    activeWizard w = w.get? 0 := by
  refine ⟨?_, ?_, rfl, rfl, ?_, ?_⟩
  · intro h
    rw [enqueueWizard, if_neg (by rw [h]; exact Bool.false_ne_true)]
  · intro h
    rw [enqueueWizard, if_pos h]
  · intro i
    rw [closeWizard]
    simp only [List.get?_eq_getElem?, List.getElem?_drop]
    rw [Nat.add_comm]
  · cases w with
    | nil => rfl
    | cons a l => rfl

/-- Witness for C5 on a concrete queue. -/
theorem C5_witness :
    ((WizardRequest.mk false 1 : WizardRequest Nat).subWizard = false) ∧
    enqueueWizard [⟨false, 0⟩] (⟨false, 1⟩ : WizardRequest Nat) =
      [⟨false, 0⟩, ⟨false, 1⟩] ∧
    ((WizardRequest.mk true 2 : WizardRequest Nat).subWizard = true) ∧
    enqueueWizard [⟨false, 0⟩] (⟨true, 2⟩ : WizardRequest Nat) =
      [⟨true, 2⟩, ⟨false, 0⟩] ∧
    closeWizard [⟨false, 0⟩, ⟨false, 1⟩] = ([⟨false, 1⟩] : List (WizardRequest Nat)) ∧
    activeWizard [⟨false, 0⟩, ⟨false, 1⟩] =
      ([⟨false, 0⟩, ⟨false, 1⟩] : List (WizardRequest Nat)).get? 0 :=
  ⟨rfl,
   (C5_wizard_queue_disciplines [⟨false, 0⟩] [] ⟨false, 1⟩).1 rfl,
   rfl,
   (C5_wizard_queue_disciplines [⟨false, 0⟩] [] ⟨true, 2⟩).2.1 rfl,
   (C5_wizard_queue_disciplines [⟨false, 1⟩] [⟨false, 1⟩] ⟨false, 0⟩).2.2.1,
   (C5_wizard_queue_disciplines [⟨false, 0⟩, ⟨false, 1⟩] [] ⟨false, 0⟩).2.2.2.2.2⟩

/-- Source type `Plugin` from `open-scd.ts` (`translations` is modelled as
an association list). -/
structure Plugin where
  name : String
  translations : Option (List (String × String))
  src : String
  icon : String
  requireDoc : Option Bool
  active : Option Bool
deriving Repr, DecidableEq

/-- The two plugin kinds, the keys of `PluginSet`. -/
inductive PluginKind where
  | menu
  | editor
deriving Repr, DecidableEq

/-- Source type `PluginSet = { menu: Plugin[]; editor: Plugin[] }`. -/
structure PluginSet where
  menu : List Plugin
  editor : List Plugin
deriving Repr, DecidableEq

/-- Argument type of the `plugins` setter: `Partial<PluginSet>`, where a
missing key is `none`. -/
structure PluginSetPatch where
  menu : Option (List Plugin)
  editor : Option (List Plugin)
deriving Repr, DecidableEq

/-- Registry state: the module-level `pluginTags` map, the private fields
`#loadedPlugins` and `#loadedPluginTagNames` and `#plugins` (`declared`),
the host's custom-element registry (`customElems`, the set of tags bound
by `customElements.define`), the host's module map (`moduleCache`: URLs
recorded by `import()`; per JavaScript module semantics a URL is fetched
and evaluated at most once), the URLs actually fetched (`loads`), and the
dynamic-import resolutions not yet run (`pending`, in resolution order). -/
structure RegistryState where
  pluginTags : List (String × String)
  loadedPlugins : PluginSet
  loadedPluginTagNames : List String
  customElems : List String
  moduleCache : List String
  loads : List String
  pending : List (String × PluginKind × Plugin)
  declared : PluginSet
deriving Repr, DecidableEq

/-- Function `pluginTag(uri)` of `open-scd.ts`:
`if (!pluginTags.has(uri)) pluginTags.set(uri, "oscd-p" + cyrb64(uri)); return pluginTags.get(uri)!`.
The hash `cyrb64` lives in `foundation.js` (not among the sources) and is
abstracted as an arbitrary function `hash`; the cache makes the result
stable regardless. -/
def pluginTag (hash : String → String) (tags : List (String × String))
    (uri : String) : String × List (String × String) :=
  match tags.lookup uri with
  | some t => (t, tags)
  | none => ("oscd-p" ++ hash uri, tags ++ [(uri, "oscd-p" ++ hash uri)])

/-- Projection of a `PluginSet` at a kind. -/
def kindList (ps : PluginSet) (k : PluginKind) : List Plugin :=
  match k with
  | .menu => ps.menu
  | .editor => ps.editor

/-- Push a plugin onto the list of the given kind. -/
def pushKind (ps : PluginSet) (k : PluginKind) (p : Plugin) : PluginSet :=
  match k with
  | .menu => ⟨ps.menu ++ [p], ps.editor⟩
  | .editor => ⟨ps.menu, ps.editor ++ [p]⟩

/-- Method `addLoadedPlugin(tagName, kind, plugin)` of `OpenSCD`:
`this.#loadedPlugins[kind].push(plugin); this.#loadedPluginTagNames.push(tagName);`. -/
def addLoadedPlugin (s : RegistryState) (tagName : String) (kind : PluginKind)
    (plugin : Plugin) : RegistryState :=
  { s with
    loadedPlugins := pushKind s.loadedPlugins kind plugin
    loadedPluginTagNames := s.loadedPluginTagNames ++ [tagName] }

/-- One iteration of the `plugins` setter's `forEach` body: compute the
tag; skip if the tag is already among the loaded tag names; if a custom
element is already bound to the tag, record the plugin as loaded
synchronously; otherwise start `import(url)` — per the host's module map
the URL is fetched only if not already requested — and queue the `then`
callback as a pending resolution. -/
def processDescriptor (hash resolve : String → String) (s : RegistryState)
    (item : PluginKind × Plugin) : RegistryState :=
  let tagName := (pluginTag hash s.pluginTags item.2.src).1
  let s1 := { s with pluginTags := (pluginTag hash s.pluginTags item.2.src).2 }
  if s1.loadedPluginTagNames.contains tagName then s1
  else if s1.customElems.contains tagName then
    addLoadedPlugin s1 tagName item.1 item.2
  else
    let url := resolve item.2.src
    let s2 := if s1.moduleCache.contains url then s1
              else { s1 with
                     moduleCache := s1.moduleCache ++ [url]
                     loads := s1.loads ++ [url] }
    { s2 with pending := s2.pending ++ [(tagName, item.1, item.2)] }

/-- Run the earliest pending import resolution (the `then` callback):
`addLoadedPlugin(...); if (!customElements.get(tagName)) customElements.define(tagName, mod.default);`. -/
def resolveOne (s : RegistryState) : RegistryState :=
  match s.pending with
  | [] => s
  | (tagName, kind, plugin) :: rest =>
    let s1 := addLoadedPlugin { s with pending := rest } tagName kind plugin
    if s1.customElems.contains tagName then s1
    else { s1 with customElems := s1.customElems ++ [tagName] }

/-- Run `k` pending resolutions in order. -/
def resolveN : Nat → RegistryState → RegistryState
  | 0, s => s
  | k + 1, s => resolveN k (resolveOne s)

/-- Run every pending resolution. -/
def resolveAll (s : RegistryState) : RegistryState :=
  resolveN s.pending.length s

/-- The `Object.entries(plugins).forEach` iteration order of the setter:
present kinds in key order, each kind's descriptors in array order. -/
def patchEntries (patch : PluginSetPatch) : List (PluginKind × Plugin) :=
  (match patch.menu with
   | some l => l.map (fun p => (PluginKind.menu, p))
   | none => []) ++
  (match patch.editor with
   | some l => l.map (fun p => (PluginKind.editor, p))
   | none => [])

/-- The `plugins` setter of `OpenSCD`: iterate the supplied partial plugin
set through `processDescriptor`, then replace the declared set wholesale:
`this.#plugins = { menu: [], editor: [], ...plugins }`. -/
def setPlugins (hash resolve : String → String) (s : RegistryState)
    (patch : PluginSetPatch) : RegistryState :=
  let s1 := (patchEntries patch).foldl (processDescriptor hash resolve) s
  { s1 with declared := ⟨patch.menu.getD [], patch.editor.getD []⟩ }

/-- Initial registry state: every map, list and set empty. -/
def initRegistry : RegistryState :=
  ⟨[], ⟨[], []⟩, [], [], [], [], [], ⟨[], []⟩⟩

/-- Growth relation on the loaded-plugin set and loaded-tag list. -/
def LoadMono (s s' : RegistryState) : Prop :=
  s.loadedPlugins.menu <+: s'.loadedPlugins.menu ∧
  s.loadedPlugins.editor <+: s'.loadedPlugins.editor ∧
  s.loadedPluginTagNames <+: s'.loadedPluginTagNames

theorem loadMono_refl (s : RegistryState) : LoadMono s s :=
  ⟨List.prefix_refl _, List.prefix_refl _, List.prefix_refl _⟩

theorem loadMono_trans {s t u : RegistryState} (h1 : LoadMono s t)
    (h2 : LoadMono t u) : LoadMono s u :=
  ⟨h1.1.trans h2.1, h1.2.1.trans h2.2.1, h1.2.2.trans h2.2.2⟩

theorem loadMono_addLoadedPlugin (s : RegistryState) (t : String)
    (k : PluginKind) (p : Plugin) : LoadMono s (addLoadedPlugin s t k p) := by
  cases k <;>
    exact ⟨by simp [addLoadedPlugin, pushKind],
           by simp [addLoadedPlugin, pushKind],
           by simp [addLoadedPlugin]⟩

theorem loadMono_processDescriptor (hash resolve : String → String)
    (s : RegistryState) (item : PluginKind × Plugin) :
    LoadMono s (processDescriptor hash resolve s item) := by
  unfold processDescriptor
  dsimp only
  split
  · exact loadMono_refl _
  · split
    · exact loadMono_addLoadedPlugin _ _ _ _
    · split <;> exact loadMono_refl _

theorem loadMono_foldl (hash resolve : String → String) :
    ∀ (items : List (PluginKind × Plugin)) (s : RegistryState),
      LoadMono s (items.foldl (processDescriptor hash resolve) s) := by
  intro items
  induction items with
  | nil => intro s; exact loadMono_refl s
  | cons it rest ih =>
    intro s
    rw [List.foldl_cons]
    exact loadMono_trans (loadMono_processDescriptor hash resolve s it)
      (ih (processDescriptor hash resolve s it))

theorem loadMono_resolveOne (s : RegistryState) : LoadMono s (resolveOne s) := by
  unfold resolveOne
  split
  · exact loadMono_refl _
  · rename_i tagName kind plugin rest heq
    dsimp only
    split
    · exact loadMono_addLoadedPlugin _ _ _ _
    · exact loadMono_addLoadedPlugin _ _ _ _

theorem loadMono_resolveN : ∀ (k : Nat) (s : RegistryState),
    LoadMono s (resolveN k s) := by
  intro k
  induction k with
  | zero => intro s; exact loadMono_refl s
  | succ k ih =>
    intro s
    rw [resolveN]
    exact loadMono_trans (loadMono_resolveOne s) (ih (resolveOne s))

/-- C9: assigning the `plugins` property never removes anything from the
loaded set — the previous `#loadedPlugins` lists and `#loadedPluginTagNames`
survive as prefixes of the new ones, both right after the synchronous part
of the setter and after any number of pending import resolutions — while
the declared set is replaced wholesale, a kind missing from the assigned
partial set becoming the empty array. -/
theorem C9_setter_preserves_loaded_replaces_declared
    (hash resolve : String → String) (s : RegistryState)
    (patch : PluginSetPatch) :
    (s.loadedPlugins.menu <+: (setPlugins hash resolve s patch).loadedPlugins.menu) ∧
    (s.loadedPlugins.editor <+: (setPlugins hash resolve s patch).loadedPlugins.editor) ∧
    (s.loadedPluginTagNames <+: (setPlugins hash resolve s patch).loadedPluginTagNames) ∧
    (∀ k : Nat,
      (s.loadedPlugins.menu <+:
        (resolveN k (setPlugins hash resolve s patch)).loadedPlugins.menu) ∧
      (s.loadedPlugins.editor <+:
        (resolveN k (setPlugins hash resolve s patch)).loadedPlugins.editor) ∧
      (s.loadedPluginTagNames <+:
        (resolveN k (setPlugins hash resolve s patch)).loadedPluginTagNames)) ∧
    (setPlugins hash resolve s patch).declared =
      ⟨patch.menu.getD [], patch.editor.getD []⟩ := by
  have hbase : LoadMono s (setPlugins hash resolve s patch) := by
    unfold setPlugins
    dsimp only
    exact loadMono_foldl hash resolve (patchEntries patch) s
  refine ⟨hbase.1, hbase.2.1, hbase.2.2, ?_, rfl⟩
  intro k
  exact loadMono_trans hbase (loadMono_resolveN k _)

theorem lookup_append_some {α β : Type} [BEq α] (l1 l2 : List (α × β))
    (a : α) (b : β) (h : l1.lookup a = some b) :
    (l1 ++ l2).lookup a = some b := by
  induction l1 with
  | nil => simp [List.lookup] at h
  | cons p rest ih =>
    obtain ⟨k, v⟩ := p
    rw [List.cons_append, List.lookup]
    rw [List.lookup] at h
    cases hak : a == k with
    | true => rw [hak] at h; exact h
    | false => rw [hak] at h; exact ih h

theorem lookup_append_none {α β : Type} [BEq α] (l1 l2 : List (α × β))
    (a : α) (h : l1.lookup a = none) :
    (l1 ++ l2).lookup a = l2.lookup a := by
  induction l1 with
  | nil => simp
  | cons p rest ih =>
    obtain ⟨k, v⟩ := p
    rw [List.cons_append, List.lookup]
    rw [List.lookup] at h
    cases hak : a == k with
    | true => rw [hak] at h; exact absurd h (by simp)
    | false => rw [hak] at h; exact ih h

/-- After any call of `pluginTag`, the cache maps the uri to the returned
tag. -/
theorem pluginTag_self (hash : String → String)
    (tags : List (String × String)) (uri : String) :
    ((pluginTag hash tags uri).2).lookup uri =
      some (pluginTag hash tags uri).1 := by
  unfold pluginTag
  cases hl : tags.lookup uri with
  | some t => exact hl
  | none =>
    dsimp only
    rw [lookup_append_none _ _ _ hl]
    simp [List.lookup]

/-- A cache hit returns the cached tag and leaves the cache unchanged. -/
theorem pluginTag_of_lookup (hash : String → String)
    (tags : List (String × String)) (uri t : String)
    (h : tags.lookup uri = some t) : pluginTag hash tags uri = (t, tags) := by
  unfold pluginTag
  rw [h]

/-- A cache entry survives any further `pluginTag` call. -/
theorem pluginTag_lookup_stable (hash : String → String)
    (tags : List (String × String)) (uri t : String)
    (h : tags.lookup uri = some t) (u : String) :
    ((pluginTag hash tags u).2).lookup uri = some t := by
  unfold pluginTag
  cases hl : tags.lookup u with
  | some t' => exact h
  | none =>
    dsimp only
    exact lookup_append_some _ _ _ _ h

/-- Thread a sequence of further `pluginTag` calls through the cache. -/
def tagCalls (hash : String → String) (tags : List (String × String)) :
    List String → List (String × String)
  | [] => tags
  | u :: us => tagCalls hash (pluginTag hash tags u).2 us

theorem tagCalls_lookup_stable (hash : String → String) (uri t : String) :
    ∀ (us : List String) (tags : List (String × String)),
      tags.lookup uri = some t →
      (tagCalls hash tags us).lookup uri = some t := by
  intro us
  induction us with
  | nil => intro tags h; exact h
  | cons u rest ih =>
    intro tags h
    rw [tagCalls]
    exact ih _ (pluginTag_lookup_stable hash tags uri t h u)

theorem mem_pushKind_self (ps : PluginSet) (k : PluginKind) (p : Plugin) :
    p ∈ kindList (pushKind ps k p) k := by
  cases k <;> simp [pushKind, kindList]

theorem mem_pushKind_of_mem (ps : PluginSet) (k k' : PluginKind) (p q : Plugin)
    (h : q ∈ kindList ps k) : q ∈ kindList (pushKind ps k' p) k := by
  cases k <;> cases k' <;> simp_all [pushKind, kindList]

/-- C4: processing two plugin descriptors carrying the same `src` — in the
same `plugins` assignment (first conjunct group) or in two assignments with
the first fully resolved in between (second group) — results in exactly one
module fetch (`loads = [url]`, by the host module map) and exactly one
custom-element binding for the derived tag (`customElems = [tag]`, by the
post-import re-check), while in the same-assignment scenario each
descriptor, hence each distinct `(name, kind)` pair, still enters the
loaded set independently; and the tag derived from a given `src` is the
same on every `pluginTag` call for the process lifetime (third group). -/
theorem C4_same_src_single_load_and_binding (hash resolve : String → String)
    (k1 k2 : PluginKind) (p1 p2 : Plugin) (h : p1.src = p2.src) :
    ((resolveAll ([(k1, p1), (k2, p2)].foldl (processDescriptor hash resolve)
        initRegistry)).loads = [resolve p1.src] ∧
     (resolveAll ([(k1, p1), (k2, p2)].foldl (processDescriptor hash resolve)
        initRegistry)).customElems = ["oscd-p" ++ hash p1.src] ∧
     p1 ∈ kindList (resolveAll ([(k1, p1), (k2, p2)].foldl
        (processDescriptor hash resolve) initRegistry)).loadedPlugins k1 ∧
     p2 ∈ kindList (resolveAll ([(k1, p1), (k2, p2)].foldl
        (processDescriptor hash resolve) initRegistry)).loadedPlugins k2) ∧
    ((resolveAll (processDescriptor hash resolve
        (resolveAll (processDescriptor hash resolve initRegistry (k1, p1)))
        (k2, p2))).loads = [resolve p1.src] ∧
     (resolveAll (processDescriptor hash resolve
        (resolveAll (processDescriptor hash resolve initRegistry (k1, p1)))
        (k2, p2))).customElems = ["oscd-p" ++ hash p1.src]) ∧
    (∀ (m : List (String × String)) (uri : String) (us : List String),
      (pluginTag hash (tagCalls hash (pluginTag hash m uri).2 us) uri).1 =
        (pluginTag hash m uri).1) := by
  have e2 : processDescriptor hash resolve
      ⟨[(p1.src, "oscd-p" ++ hash p1.src)], ⟨[], []⟩, [], [],
       [resolve p1.src], [resolve p1.src],
       [("oscd-p" ++ hash p1.src, k1, p1)], ⟨[], []⟩⟩ (k2, p2) =
      ⟨[(p1.src, "oscd-p" ++ hash p1.src)], ⟨[], []⟩, [], [],
       [resolve p1.src], [resolve p1.src],
       [("oscd-p" ++ hash p1.src, k1, p1),
        ("oscd-p" ++ hash p1.src, k2, p2)], ⟨[], []⟩⟩ := by
    unfold processDescriptor
    dsimp only
    rw [show p2.src = p1.src from h.symm]
    rw [pluginTag_of_lookup hash [(p1.src, "oscd-p" ++ hash p1.src)] p1.src
      ("oscd-p" ++ hash p1.src) (by simp [List.lookup])]
    simp
  have e4 : resolveOne
      ⟨[(p1.src, "oscd-p" ++ hash p1.src)], pushKind ⟨[], []⟩ k1 p1,
       ["oscd-p" ++ hash p1.src], ["oscd-p" ++ hash p1.src],
       [resolve p1.src], [resolve p1.src],
       [("oscd-p" ++ hash p1.src, k2, p2)], ⟨[], []⟩⟩ =
      ⟨[(p1.src, "oscd-p" ++ hash p1.src)],
       pushKind (pushKind ⟨[], []⟩ k1 p1) k2 p2,
       ["oscd-p" ++ hash p1.src, "oscd-p" ++ hash p1.src],
       ["oscd-p" ++ hash p1.src],
       [resolve p1.src], [resolve p1.src], [], ⟨[], []⟩⟩ := by
    unfold resolveOne
    dsimp only
    rw [if_pos (by simp [addLoadedPlugin])]
    rfl
  have efin : resolveAll ([(k1, p1), (k2, p2)].foldl
      (processDescriptor hash resolve) initRegistry) =
      ⟨[(p1.src, "oscd-p" ++ hash p1.src)],
       pushKind (pushKind ⟨[], []⟩ k1 p1) k2 p2,
       ["oscd-p" ++ hash p1.src, "oscd-p" ++ hash p1.src],
       ["oscd-p" ++ hash p1.src],
       [resolve p1.src], [resolve p1.src], [], ⟨[], []⟩⟩ := by
    show resolveAll (processDescriptor hash resolve
      (processDescriptor hash resolve initRegistry (k1, p1)) (k2, p2)) = _
    rw [show processDescriptor hash resolve initRegistry (k1, p1) =
      ⟨[(p1.src, "oscd-p" ++ hash p1.src)], ⟨[], []⟩, [], [],
       [resolve p1.src], [resolve p1.src],
       [("oscd-p" ++ hash p1.src, k1, p1)], ⟨[], []⟩⟩ from rfl]
    rw [e2]
    show resolveOne (resolveOne
      ⟨[(p1.src, "oscd-p" ++ hash p1.src)], ⟨[], []⟩, [], [],
       [resolve p1.src], [resolve p1.src],
       [("oscd-p" ++ hash p1.src, k1, p1),
        ("oscd-p" ++ hash p1.src, k2, p2)], ⟨[], []⟩⟩) = _
    rw [show resolveOne
      (⟨[(p1.src, "oscd-p" ++ hash p1.src)], ⟨[], []⟩, [], [],
       [resolve p1.src], [resolve p1.src],
       [("oscd-p" ++ hash p1.src, k1, p1),
        ("oscd-p" ++ hash p1.src, k2, p2)], ⟨[], []⟩⟩ : RegistryState) =
      ⟨[(p1.src, "oscd-p" ++ hash p1.src)], pushKind ⟨[], []⟩ k1 p1,
       ["oscd-p" ++ hash p1.src], ["oscd-p" ++ hash p1.src],
       [resolve p1.src], [resolve p1.src],
       [("oscd-p" ++ hash p1.src, k2, p2)], ⟨[], []⟩⟩ from rfl]
    exact e4
  have e5 : processDescriptor hash resolve
      ⟨[(p1.src, "oscd-p" ++ hash p1.src)], pushKind ⟨[], []⟩ k1 p1,
       ["oscd-p" ++ hash p1.src], ["oscd-p" ++ hash p1.src],
       [resolve p1.src], [resolve p1.src], [], ⟨[], []⟩⟩ (k2, p2) =
      ⟨[(p1.src, "oscd-p" ++ hash p1.src)], pushKind ⟨[], []⟩ k1 p1,
       ["oscd-p" ++ hash p1.src], ["oscd-p" ++ hash p1.src],
       [resolve p1.src], [resolve p1.src], [], ⟨[], []⟩⟩ := by
    unfold processDescriptor
    dsimp only
    rw [show p2.src = p1.src from h.symm]
    rw [pluginTag_of_lookup hash [(p1.src, "oscd-p" ++ hash p1.src)] p1.src
      ("oscd-p" ++ hash p1.src) (by simp [List.lookup])]
    rw [if_pos (by simp)]
  have efin2 : resolveAll (processDescriptor hash resolve
      (resolveAll (processDescriptor hash resolve initRegistry (k1, p1)))
      (k2, p2)) =
      ⟨[(p1.src, "oscd-p" ++ hash p1.src)], pushKind ⟨[], []⟩ k1 p1,
       ["oscd-p" ++ hash p1.src], ["oscd-p" ++ hash p1.src],
       [resolve p1.src], [resolve p1.src], [], ⟨[], []⟩⟩ := by
    rw [show resolveAll (processDescriptor hash resolve initRegistry (k1, p1)) =
      ⟨[(p1.src, "oscd-p" ++ hash p1.src)], pushKind ⟨[], []⟩ k1 p1,
       ["oscd-p" ++ hash p1.src], ["oscd-p" ++ hash p1.src],
       [resolve p1.src], [resolve p1.src], [], ⟨[], []⟩⟩ from rfl]
    rw [e5]
    rfl
  refine ⟨?_, ?_, ?_⟩
  · rw [efin]
    exact ⟨rfl, rfl,
      mem_pushKind_of_mem _ k1 k2 p2 p1 (mem_pushKind_self _ k1 p1),
      mem_pushKind_self _ k2 p2⟩
  · rw [efin2]
    exact ⟨rfl, rfl⟩
  · intro m uri us
    rw [pluginTag_of_lookup hash _ uri (pluginTag hash m uri).1
      (tagCalls_lookup_stable hash uri (pluginTag hash m uri).1 us _
        (pluginTag_self hash m uri))]


/-- Plugin descriptors sharing one `src` under different names. -/
def plugA : Plugin := ⟨"A", none, "u1", "i", none, none⟩

/-- Second descriptor with the same `src` as `plugA`. -/
def plugB : Plugin := ⟨"B", none, "u1", "i", none, none⟩

/-- Witness for C4 at a concrete identity hash and resolver. -/
theorem C4_witness :
    plugA.src = plugB.src ∧
    (resolveAll ([(PluginKind.menu, plugA), (PluginKind.editor, plugB)].foldl
        (processDescriptor (fun s => s) (fun s => s)) initRegistry)).loads =
      [plugA.src] ∧
    (resolveAll ([(PluginKind.menu, plugA), (PluginKind.editor, plugB)].foldl
        (processDescriptor (fun s => s) (fun s => s)) initRegistry)).customElems =
      ["oscd-p" ++ plugA.src] :=
  ⟨rfl,
   (C4_same_src_single_load_and_binding (fun s => s) (fun s => s)
     .menu .editor plugA plugB rfl).1.1,
   (C4_same_src_single_load_and_binding (fun s => s) (fun s => s)
     .menu .editor plugA plugB rfl).1.2.1⟩

/-- JavaScript `toLowerCase` restricted to ASCII (which covers the default
extension list and ASCII document names): lowercase an uppercase ASCII
letter, leave any other character unchanged. -/
def asciiLowerChar (c : Char) : Char :=
  if 65 ≤ c.toNat ∧ c.toNat ≤ 90 then Char.ofNat (c.toNat + 32) else c

/-- Lowercase a name (names are modelled as lists of characters). -/
def asciiLower (s : List Char) : List Char :=
  s.map asciiLowerChar

/-- Method `isEditable(docName)` of `OpenSCD`:
`!!this.editable.find(ext => docName.toLowerCase().endsWith("." + ext))`. -/
def isEditable (editable : List (List Char)) (docName : List Char) : Bool :=
  editable.any fun ext => ('.' :: ext).isSuffixOf (asciiLower docName)

/-- The default `editable` property value:
`['cid', 'icd', 'iid', 'scd', 'sed', 'ssd']`. -/
def defaultEditable : List (List Char) :=
  [['c', 'i', 'd'], ['i', 'c', 'd'], ['i', 'i', 'd'],
   ['s', 'c', 'd'], ['s', 'e', 'd'], ['s', 's', 'd']]

/-- State touched by `handleOpenDoc`: the `docs` record (an association
list with JavaScript object-key update semantics), the current `docName`
and the `editable` extension list. -/
structure OpenDocState (D : Type) where
  docs : List (List Char × D)
  docName : List Char
  editable : List (List Char)

/-- JavaScript `obj[key] = value` on a plain object: an existing key keeps
its position and gets the new value, a new key is appended. -/
def recordSet {D : Type} : List (List Char × D) → List Char → D →
    List (List Char × D)
  | [], k, v => [(k, v)]
  | (k', v') :: rest, k, v =>
      if k' = k then (k, v) :: rest else (k', v') :: recordSet rest k v

/-- Key lookup in the `docs` record. -/
def lookupName {D : Type} : List (List Char × D) → List Char → Option D
  | [], _ => none
  | (k, v) :: rest, key => if k = key then some v else lookupName rest key

/-- Method `handleOpenDoc({detail: {docName, doc}})` of `OpenSCD`:
`this.docs[docName] = doc; if (this.isEditable(docName)) this.docName = docName;`. -/
def handleOpenDoc {D : Type} (s : OpenDocState D) (doc : D)
    (docName : List Char) : OpenDocState D :=
  { s with
    docs := recordSet s.docs docName doc
    docName := if isEditable s.editable docName then docName else s.docName }

theorem toNat_ofNat_lowered (n : Nat) (h1 : 65 ≤ n) (h2 : n ≤ 90) :
    (Char.ofNat (n + 32)).toNat = n + 32 := by
  have hv : (n + 32).isValidChar := Or.inl (by omega)
  rw [Char.ofNat, dif_pos hv]
  simp [Char.ofNatAux, Char.toNat, UInt32.toNat, BitVec.toNat_ofNatLt]

theorem asciiLowerChar_idem (c : Char) :
    asciiLowerChar (asciiLowerChar c) = asciiLowerChar c := by
  unfold asciiLowerChar
  by_cases h : 65 ≤ c.toNat ∧ c.toNat ≤ 90
  · rw [if_pos h]
    rw [if_neg (by rw [toNat_ofNat_lowered c.toNat h.1 h.2]; omega)]
  · rw [if_neg h, if_neg h]

theorem asciiLower_idem (s : List Char) :
    asciiLower (asciiLower s) = asciiLower s := by
  induction s with
  | nil => rfl
  | cons c rest ih =>
    simp only [asciiLower, List.map_cons] at *
    rw [asciiLowerChar_idem]
    rw [ih]

theorem lookupName_recordSet_self {D : Type} (m : List (List Char × D))
    (k : List Char) (v : D) : lookupName (recordSet m k v) k = some v := by
  induction m with
  | nil => simp [recordSet, lookupName]
  | cons p rest ih =>
    obtain ⟨k', v'⟩ := p
    rw [recordSet]
    by_cases hk : k' = k
    · rw [if_pos hk, lookupName, if_pos rfl]
    · rw [if_neg hk, lookupName, if_neg hk]
      exact ih

/-- C10: opening a document stores it in the `docs` record under its name
unconditionally; the current `docName` switches to the new name exactly
when the name is editable, and stays unchanged otherwise; editability of a
name under the default extension list is insensitive to the name's ASCII
case, and holds exactly when the lowercased name ends in a dot followed by
one of the editable extensions. -/
theorem C10_open_doc_stores_selects_editable {D : Type} (s : OpenDocState D)
    (doc : D) (docName : List Char) :
    lookupName (handleOpenDoc s doc docName).docs docName = some doc ∧
    (handleOpenDoc s doc docName).docName =
      (if isEditable s.editable docName then docName else s.docName) ∧
    isEditable defaultEditable docName =
      isEditable defaultEditable (asciiLower docName) ∧
    (isEditable defaultEditable docName = true ↔
      ∃ ext ∈ defaultEditable,
        ('.' :: ext).isSuffixOf (asciiLower docName) = true) := by
  refine ⟨?_, rfl, ?_, ?_⟩
  · exact lookupName_recordSet_self s.docs docName doc
  · unfold isEditable
    rw [asciiLower_idem]
  · unfold isEditable
    exact List.any_eq_true
